import Mathlib

/-
Verification of the span-resolution engine of colorexp-rs (src/main.rs).

The program highlights regex matches in input lines.  The core data type is
`RangeWithId` (a half-open byte range in a line tagged with a color index);
`add_range` inserts a new range into an ordered non-overlapping sequence,
clipping the new range against existing ones, and `match_line` collects the
candidate ranges of every pattern and feeds them to `add_range` one by one.

The regex engine itself is an external collaborator: a compiled pattern is
modelled by the data it reports for one line (`LineRegex`), namely its
capture-group count (`captures_len`, which the regex crate guarantees to be
at least 1 because group 0 always exists) and the list of match occurrences,
each giving the optional (start, end) offsets of every group.
-/

/-- Mirrors `struct RangeWithId { start_idx, end_idx, id: usize }`. -/
structure RangeWithId where
  start_idx : Nat
  end_idx : Nat
  id : Nat
deriving DecidableEq, Repr

/-- Functional form of the `while i < ranges.len()` scan inside `add_range`
(src/main.rs lines 104-141).  The imperative loop walks the vector left to
right, inserting elements before position `i` and stepping past them; reading
it as a recursion over the not-yet-visited suffix, each step emits the
elements placed before or at the current position and continues on the rest
with the (possibly clipped) `new_range` and the `inserted` flag.  The `[]`
case also performs the final `if !inserted { ranges.push(new_range) }`
(lines 145-147). -/
def addRangeLoop : List RangeWithId → RangeWithId → Bool → List RangeWithId
  | [], new_range, inserted => if inserted then [] else [new_range]
  | e :: rest, new_range, inserted =>
    if new_range.end_idx ≤ e.start_idx then
      -- the new range is entirely before the existing range
      if inserted then e :: addRangeLoop rest new_range inserted
      else new_range :: e :: addRangeLoop rest new_range true
    else if e.end_idx ≤ new_range.start_idx then
      -- the new range is entirely after the existing range
      e :: addRangeLoop rest new_range inserted
    else
      -- overlap: possibly emit the leading non-overlapping piece, then
      -- either shrink the new range past `e` or collapse it to empty
      (if inserted = false ∧ new_range.start_idx < e.start_idx then
        [⟨new_range.start_idx, e.start_idx, new_range.id⟩] else []) ++
      e ::
      (if e.end_idx < new_range.end_idx then
        addRangeLoop rest ⟨e.end_idx, new_range.end_idx, new_range.id⟩ inserted
      else
        addRangeLoop rest ⟨new_range.end_idx, new_range.end_idx, new_range.id⟩ true)

/-- Mirrors `fn add_range(ranges: &mut Vec<RangeWithId>, mut new_range: RangeWithId)`
(src/main.rs lines 101-148). -/
def add_range (ranges : List RangeWithId) (new_range : RangeWithId) : List RangeWithId :=
  addRangeLoop ranges new_range false

/-- Insertion at an index, mirroring `Vec::insert`. -/
def insertAt (l : List RangeWithId) (n : Nat) (a : RangeWithId) : List RangeWithId :=
  l.take n ++ a :: l.drop n

/-- Index-level rendering of the `add_range` loop, kept as close as possible
to the imperative source: the loop guard `i < ranges.len()` is the `if`
around the body, and the body's `ranges.get_unchecked(i)` is modelled by the
fallible lookup `ranges[i]?` whose `none` branch stands for an out-of-bounds
read.  Insertions (`ranges.insert(i, _)` followed by `i += 1`) and the final
`i += 1` of the loop body are reflected in the recursive calls. -/
def addRangeIdxGo (ranges : List RangeWithId) (i : Nat) (new_range : RangeWithId)
    (inserted : Bool) : Option (List RangeWithId) :=
  if h : i < ranges.length then
    match ranges[i]? with
    | none => none
    | some e =>
      if new_range.end_idx ≤ e.start_idx then
        if inserted then addRangeIdxGo ranges (i + 1) new_range inserted
        else addRangeIdxGo (insertAt ranges i new_range) (i + 2) new_range true
      else if e.end_idx ≤ new_range.start_idx then
        addRangeIdxGo ranges (i + 1) new_range inserted
      else
        if inserted = false ∧ new_range.start_idx < e.start_idx then
          if e.end_idx < new_range.end_idx then
            addRangeIdxGo (insertAt ranges i ⟨new_range.start_idx, e.start_idx, new_range.id⟩)
              (i + 2) ⟨e.end_idx, new_range.end_idx, new_range.id⟩ inserted
          else
            addRangeIdxGo (insertAt ranges i ⟨new_range.start_idx, e.start_idx, new_range.id⟩)
              (i + 2) ⟨new_range.end_idx, new_range.end_idx, new_range.id⟩ true
        else
          if e.end_idx < new_range.end_idx then
            addRangeIdxGo ranges (i + 1) ⟨e.end_idx, new_range.end_idx, new_range.id⟩ inserted
          else
            addRangeIdxGo ranges (i + 1) ⟨new_range.end_idx, new_range.end_idx, new_range.id⟩ true
  else if inserted then some ranges else some (ranges ++ [new_range])
termination_by ranges.length - i
decreasing_by
  all_goals simp [insertAt]
  all_goals omega

/-- Entry point of the index-level rendering: `i` starts at 0 and `inserted`
at false, as in the source. -/
def addRangeChecked (ranges : List RangeWithId) (new_range : RangeWithId) :
    Option (List RangeWithId) :=
  addRangeIdxGo ranges 0 new_range false

/-- One occurrence reported by the regex engine for a line: the optional
(start, end) offsets of each group, group 0 first (`Captures::get`). -/
structure CaptureMatch where
  groups : List (Option (Nat × Nat))
deriving DecidableEq, Repr

/-- A compiled regex together with what its matcher reports on one fixed
line: `captures_len` and the list of occurrences found by `captures_iter`. -/
structure LineRegex where
  capturesLen : Nat
  matchList : List CaptureMatch
deriving DecidableEq, Repr

/-- Mirrors `let num_groups = re.captures_len() - 1` (line 159).  In the
regex crate `captures_len() ≥ 1` always holds (group 0 is implicit), so the
truncating `Nat` subtraction agrees with the `usize` one. -/
def num_groups (re : LineRegex) : Nat := re.capturesLen - 1

/-- Mirrors the `first_group_to_colorize` computation (lines 160-164). -/
def first_group_to_colorize (re : LineRegex) (full_match_highlight : Bool) : Nat :=
  if full_match_highlight then 0 else min 1 (num_groups re)

/-- Mirrors the `groups_to_colorize` computation (lines 165-169). -/
def groups_to_colorize (re : LineRegex) (full_match_highlight : Bool) : Nat :=
  if full_match_highlight then 1
  else num_groups re + 1 - first_group_to_colorize re full_match_highlight

/-- The candidate ranges one pattern feeds to `add_range`, in order: the body
of `for match_ in re.captures_iter(line) { for i in 0..groups_to_colorize }`
(lines 170-191).  `cur_color_idx` is `color_idx` plus the per-group offset
when `vary_group_colors` is set, and a group that did not participate
(`match_.get(g_idx)` returned `None`) contributes nothing. -/
def matchCandidates (re : LineRegex) (color_idx : Nat) (vary_group_colors : Bool)
    (full_match_highlight : Bool) : List RangeWithId :=
  re.matchList.foldr (fun m acc =>
    ((List.range (groups_to_colorize re full_match_highlight)).filterMap (fun i =>
      (m.groups.getD (i + first_group_to_colorize re full_match_highlight) none).map
        (fun g => ⟨g.1, g.2,
          color_idx +
            (if vary_group_colors then
              groups_to_colorize re full_match_highlight - 1 - i else 0)⟩))) ++ acc) []

/-- Mirrors the per-pattern update of `color_idx` (lines 192-196). -/
def colorStep (re : LineRegex) (vary_group_colors full_match_highlight : Bool) : Nat :=
  if vary_group_colors then groups_to_colorize re full_match_highlight else 1

/-- The `for re in regexps` loop of `match_line` (lines 156-197): each
pattern's candidates are fed to `add_range` one at a time, then `color_idx`
advances by `colorStep`. -/
def matchLineGo : List LineRegex → Nat → Bool → Bool → List RangeWithId → List RangeWithId
  | [], _, _, _, ranges => ranges
  | re :: rest, color_idx, vary_group_colors, full_match_highlight, ranges =>
    matchLineGo rest (color_idx + colorStep re vary_group_colors full_match_highlight)
      vary_group_colors full_match_highlight
      ((matchCandidates re color_idx vary_group_colors full_match_highlight).foldl
        add_range ranges)

/-- Mirrors `fn match_line` (lines 150-199): `ranges` starts empty and
`color_idx` starts at 0. -/
def match_line (regexps : List LineRegex) (vary_group_colors full_match_highlight : Bool) :
    List RangeWithId :=
  matchLineGo regexps 0 vary_group_colors full_match_highlight []

/-- The candidate ranges of all patterns in feeding order, with the running
`color_idx` made explicit. -/
def flatCandidatesGo : List LineRegex → Nat → Bool → Bool → List RangeWithId
  | [], _, _, _ => []
  | re :: rest, color_idx, vary_group_colors, full_match_highlight =>
    matchCandidates re color_idx vary_group_colors full_match_highlight ++
      flatCandidatesGo rest (color_idx + colorStep re vary_group_colors full_match_highlight)
        vary_group_colors full_match_highlight

/-- The pattern at position `k` of the compiled list. -/
def patternAt (regexps : List LineRegex) (k : Nat) : LineRegex :=
  regexps.getD k ⟨0, []⟩

/-- Value of the running color counter just before pattern `k` is processed:
the sum of the steps of the patterns before it (the counter starts at 0). -/
def colorIdxBefore (regexps : List LineRegex) (vary_group_colors full_match_highlight : Bool)
    (k : Nat) : Nat :=
  ((regexps.take k).map
    (fun re => colorStep re vary_group_colors full_match_highlight)).sum

/-- Mirrors the `.rev()` in `run` (lines 238-248): the compiled regex list is
the caller-supplied pattern list in reverse order, so the last-listed pattern
is processed first by `match_line`. -/
def runRegexOrder (patterns : List LineRegex) : List LineRegex := patterns.reverse

/-- Mirrors the `vary_group_colors` selection in `run` (lines 228-236). -/
def runVaryGroupColors (vary_on vary_off : Bool) (num_patterns : Nat) : Bool :=
  if vary_on then true else if vary_off then false else num_patterns == 1

/-- The spec's well-formed Ordered Range Sequence: sorted, non-overlapping
(touching allowed), every range non-empty. -/
def rangesOrdered (l : List RangeWithId) : Prop :=
  List.Chain' (fun a b => a.end_idx ≤ b.start_idx) l ∧ ∀ r ∈ l, r.start_idx < r.end_idx

/-- Executable check of the adjacent `end ≤ start` chain condition. -/
def orderedChainB : List RangeWithId → Bool
  | [] => true
  | [_] => true
  | a :: b :: rest => decide (a.end_idx ≤ b.start_idx) && orderedChainB (b :: rest)

instance (l : List RangeWithId) : Decidable (rangesOrdered l) :=
  decidable_of_iff (orderedChainB l = true ∧ ∀ r ∈ l, r.start_idx < r.end_idx) (by
    have h : ∀ l' : List RangeWithId,
        orderedChainB l' = true ↔
          List.Chain' (fun a b => a.end_idx ≤ b.start_idx) l' := by
      intro l'
      induction l' with
      | nil => simp [orderedChainB]
      | cons a rest ih =>
        cases rest with
        | nil => simp [orderedChainB]
        | cons b rest' =>
          simp only [orderedChainB, Bool.and_eq_true, decide_eq_true_eq, ih,
            List.chain'_cons]
    exact and_congr (h l) Iff.rfl)

/-- Position `p` is covered by a range of the sequence carrying color `c`. -/
def coversWith (l : List RangeWithId) (p c : Nat) : Prop :=
  ∃ r ∈ l, r.start_idx ≤ p ∧ p < r.end_idx ∧ r.id = c

instance (l : List RangeWithId) (p c : Nat) : Decidable (coversWith l p c) := by
  unfold coversWith; infer_instance

/-- The matcher of `re` reported some participating group range covering
position `p` (used to express that a pattern's matches touch `p`). -/
def reportsAt (re : LineRegex) (p : Nat) : Bool :=
  re.matchList.any (fun m => m.groups.any (fun g =>
    match g with
    | some (s, t) => decide (s ≤ p) && decide (p < t)
    | none => false))

/-- Modelled from the spec: the scan of section 4.1's pseudocode taken
literally, word by word.  In particular the first sub-bullet of the overlap
case reads "insert the leading non-overlapping slice ...; mark placed", so
this version sets the placed flag when the leading slice is emitted.
Returns (emitted sequence, final cursor range, placed flag). -/
def scanSpecLiteral : List RangeWithId → RangeWithId → Bool →
    List RangeWithId × RangeWithId × Bool
  | [], new_range, placed => ([], new_range, placed)
  | e :: rest, new_range, placed =>
    if new_range.end_idx ≤ e.start_idx then
      if placed then
        let r := scanSpecLiteral rest new_range placed
        (e :: r.1, r.2)
      else
        let r := scanSpecLiteral rest new_range true
        (new_range :: e :: r.1, r.2)
    else if e.end_idx ≤ new_range.start_idx then
      let r := scanSpecLiteral rest new_range placed
      (e :: r.1, r.2)
    else
      if placed = false ∧ new_range.start_idx < e.start_idx then
        if e.end_idx < new_range.end_idx then
          let r := scanSpecLiteral rest ⟨e.end_idx, new_range.end_idx, new_range.id⟩ true
          (⟨new_range.start_idx, e.start_idx, new_range.id⟩ :: e :: r.1, r.2)
        else
          let r := scanSpecLiteral rest ⟨new_range.end_idx, new_range.end_idx, new_range.id⟩ true
          (⟨new_range.start_idx, e.start_idx, new_range.id⟩ :: e :: r.1, r.2)
      else
        if e.end_idx < new_range.end_idx then
          let r := scanSpecLiteral rest ⟨e.end_idx, new_range.end_idx, new_range.id⟩ placed
          (e :: r.1, r.2)
        else
          let r := scanSpecLiteral rest ⟨new_range.end_idx, new_range.end_idx, new_range.id⟩ true
          (e :: r.1, r.2)

/-- Modelled from the spec: section 4.1's final step, "after the scan, if
still not placed ..., append the remaining new at the end — but only if it
is non-empty, or if the sequence was empty to begin with and nothing was
placed yet", applied to the literal scan. -/
def specAddRangeLiteral (ranges : List RangeWithId) (new_range : RangeWithId) :
    List RangeWithId :=
  let r := scanSpecLiteral ranges new_range false
  if r.2.2 = false ∧ (r.2.1.start_idx < r.2.1.end_idx ∨ ranges = []) then
    r.1 ++ [r.2.1]
  else r.1

/-- Modelled from the spec: the same pseudocode scan with the one amendment
the code forces — emitting the leading slice does NOT mark the range placed
(the flag is set only when the whole remaining range is inserted before an
existing range, or when it is fully covered and collapses). -/
def scanSpecAmended : List RangeWithId → RangeWithId → Bool →
    List RangeWithId × RangeWithId × Bool
  | [], new_range, placed => ([], new_range, placed)
  | e :: rest, new_range, placed =>
    if new_range.end_idx ≤ e.start_idx then
      if placed then
        let r := scanSpecAmended rest new_range placed
        (e :: r.1, r.2)
      else
        let r := scanSpecAmended rest new_range true
        (new_range :: e :: r.1, r.2)
    else if e.end_idx ≤ new_range.start_idx then
      let r := scanSpecAmended rest new_range placed
      (e :: r.1, r.2)
    else
      if placed = false ∧ new_range.start_idx < e.start_idx then
        if e.end_idx < new_range.end_idx then
          let r := scanSpecAmended rest ⟨e.end_idx, new_range.end_idx, new_range.id⟩ placed
          (⟨new_range.start_idx, e.start_idx, new_range.id⟩ :: e :: r.1, r.2)
        else
          let r := scanSpecAmended rest ⟨new_range.end_idx, new_range.end_idx, new_range.id⟩ true
          (⟨new_range.start_idx, e.start_idx, new_range.id⟩ :: e :: r.1, r.2)
      else
        if e.end_idx < new_range.end_idx then
          let r := scanSpecAmended rest ⟨e.end_idx, new_range.end_idx, new_range.id⟩ placed
          (e :: r.1, r.2)
        else
          let r := scanSpecAmended rest ⟨new_range.end_idx, new_range.end_idx, new_range.id⟩ true
          (e :: r.1, r.2)

/-- Modelled from the spec: section 4.1's final append step applied to the
amended scan. -/
def specAddRangeAmended (ranges : List RangeWithId) (new_range : RangeWithId) :
    List RangeWithId :=
  let r := scanSpecAmended ranges new_range false
  if r.2.2 = false ∧ (r.2.1.start_idx < r.2.1.end_idx ∨ ranges = []) then
    r.1 ++ [r.2.1]
  else r.1

/-- The ASCII escape character. -/
def ESC : Char := '\x1b'

/-- Mirrors `static FOREGROUND_COLORS` (lines 66-75). -/
def FOREGROUND_COLORS : List (List Char) :=
  [[ESC, '[', '3', '1', 'm'], [ESC, '[', '3', '2', 'm'], [ESC, '[', '3', '3', 'm'],
   [ESC, '[', '3', '4', 'm'], [ESC, '[', '3', '5', 'm'], [ESC, '[', '3', '6', 'm']]

/-- Mirrors `static BACKGROUND_COLORS` (lines 77-86): Red, Blue, Magenta,
Green, Yellow, Cyan. -/
def BACKGROUND_COLORS : List (List Char) :=
  [[ESC, '[', '4', '1', 'm'], [ESC, '[', '4', '4', 'm'], [ESC, '[', '4', '5', 'm'],
   [ESC, '[', '4', '2', 'm'], [ESC, '[', '4', '3', 'm'], [ESC, '[', '4', '6', 'm']]

/-- Mirrors `const RESET_FOREGROUND` (line 88). -/
def RESET_FOREGROUND : List Char := [ESC, '[', '0', 'm']

/-- Mirrors `const RESET_BACKGROUND` (line 89). -/
def RESET_BACKGROUND : List Char := [ESC, '[', '4', '9', 'm']

/-- Mirrors the `colors` vector built in `run` (lines 251-264). -/
def buildColors (no_highlight only_highlight : Bool) : List (List Char × List Char) :=
  (if only_highlight then [] else FOREGROUND_COLORS.map (fun c => (c, RESET_FOREGROUND))) ++
  (if no_highlight then [] else BACKGROUND_COLORS.map (fun c => (c, RESET_BACKGROUND)))

/-- Semantics of `regexps[0].replace_all(&line, rep)` with
`rep = format!("{}$0{}", color.0, color.1)` (lines 274-275): every match of
the first compiled regex — its leftmost non-overlapping occurrences, given
here as `(start, end)` offset pairs — is replaced by the start code, the
matched text and the reset code; text between matches is copied verbatim. -/
def replaceAllWrap (line : List Char) (color : List Char × List Char) :
    Nat → List (Nat × Nat) → List Char
  | pos, [] => line.drop pos
  | pos, (s, t) :: rest =>
    (line.drop pos).take (s - pos) ++ color.1 ++ (line.drop s).take (t - s) ++ color.2 ++
      replaceAllWrap line color t rest

/-- The per-line output the program actually prints (lines 266-277): the
result of `match_line` is bound to the unused `_ranges` and discarded, and
the printed string wraps each match of `regexps[0]` in `colors[0]`. -/
def codeLineOutput (line : List Char) (first_regex_matches : List (Nat × Nat))
    (colors : List (List Char × List Char)) : List Char :=
  replaceAllWrap line (colors.headD ([], [])) 0 first_regex_matches

/-- Modelled from the spec: the renderer of section 4.3, which is absent from
the code — "copy untouched text between ranges verbatim; for each range, emit
a start escape code selected by colorId followed by the covered text followed
by the corresponding reset code", with colorId taken modulo the palette
size. -/
def renderRanges (line : List Char) (colors : List (List Char × List Char)) :
    Nat → List RangeWithId → List Char
  | pos, [] => line.drop pos
  | pos, r :: rest =>
    let c := colors.getD (r.id % colors.length) ([], [])
    (line.drop pos).take (r.start_idx - pos) ++ c.1 ++
      (line.drop r.start_idx).take (r.end_idx - r.start_idx) ++ c.2 ++
      renderRanges line colors r.end_idx rest

/-! Validation of the embedding against the repository's own test suite
(`test_add_range` and `test_match_line` in src/main.rs). -/

example : add_range [⟨5, 8, 1⟩] ⟨3, 5, 2⟩ = [⟨3, 5, 2⟩, ⟨5, 8, 1⟩] := by decide

example : add_range [⟨5, 8, 1⟩] ⟨3, 4, 2⟩ = [⟨3, 4, 2⟩, ⟨5, 8, 1⟩] := by decide

example : add_range [⟨1, 3, 0⟩] ⟨3, 5, 2⟩ = [⟨1, 3, 0⟩, ⟨3, 5, 2⟩] := by decide

example : add_range [⟨1, 3, 0⟩] ⟨4, 5, 2⟩ = [⟨1, 3, 0⟩, ⟨4, 5, 2⟩] := by decide

example : add_range [⟨1, 3, 0⟩, ⟨5, 8, 1⟩] ⟨3, 5, 2⟩ = [⟨1, 3, 0⟩, ⟨3, 5, 2⟩, ⟨5, 8, 1⟩] := by
  decide

example : add_range [⟨1, 3, 0⟩, ⟨5, 8, 1⟩] ⟨3, 4, 2⟩ = [⟨1, 3, 0⟩, ⟨3, 4, 2⟩, ⟨5, 8, 1⟩] := by
  decide

example : add_range [⟨1, 3, 0⟩, ⟨5, 8, 1⟩] ⟨4, 5, 2⟩ = [⟨1, 3, 0⟩, ⟨4, 5, 2⟩, ⟨5, 8, 1⟩] := by
  decide

example : add_range [⟨1, 3, 0⟩, ⟨5, 8, 1⟩] ⟨2, 6, 2⟩ = [⟨1, 3, 0⟩, ⟨3, 5, 2⟩, ⟨5, 8, 1⟩] := by
  decide

example : add_range [⟨1, 3, 0⟩, ⟨5, 8, 1⟩] ⟨6, 7, 2⟩ = [⟨1, 3, 0⟩, ⟨5, 8, 1⟩] := by decide

example : add_range [⟨1, 5, 0⟩, ⟨10, 15, 1⟩] ⟨3, 12, 2⟩ =
    [⟨1, 5, 0⟩, ⟨5, 10, 2⟩, ⟨10, 15, 1⟩] := by decide

example : match_line [⟨1, [⟨[some (0, 1)]⟩, ⟨[some (3, 4)]⟩]⟩] false false =
    [⟨0, 1, 0⟩, ⟨3, 4, 0⟩] := by decide

/-! Helper lemmas about the `add_range` scan. -/

/-- Once the new range has been inserted, the rest of the scan copies the
remaining existing ranges unchanged. -/
theorem addRangeLoop_inserted :
    ∀ (l : List RangeWithId) (new_range : RangeWithId), addRangeLoop l new_range true = l := by
  intro l
  induction l with
  | nil => intro nr; rfl
  | cons e rest ih =>
    intro nr
    simp only [addRangeLoop]
    by_cases h1 : nr.end_idx ≤ e.start_idx
    · simp [h1, ih]
    · by_cases h2 : e.end_idx ≤ nr.start_idx
      · simp [h1, h2, ih]
      · by_cases h3 : e.end_idx < nr.end_idx
        · simp [h1, h2, h3, ih]
        · simp [h1, h2, h3, ih]

/-- The original list is a sublist of the scan's result: no existing range is
altered, removed or reordered. -/
theorem addRangeLoop_sublist :
    ∀ (l : List RangeWithId) (new_range : RangeWithId) (inserted : Bool),
      l.Sublist (addRangeLoop l new_range inserted) := by
  intro l
  induction l with
  | nil => intro nr ins; exact List.nil_sublist _
  | cons e rest ih =>
    intro nr ins
    simp only [addRangeLoop]
    split
    · split
      · exact List.Sublist.cons₂ e (ih nr ins)
      · exact List.Sublist.cons nr (List.Sublist.cons₂ e (ih nr true))
    · split
      · exact List.Sublist.cons₂ e (ih nr ins)
      · have hX : rest.Sublist
            (if e.end_idx < nr.end_idx then
              addRangeLoop rest ⟨e.end_idx, nr.end_idx, nr.id⟩ ins
            else addRangeLoop rest ⟨nr.end_idx, nr.end_idx, nr.id⟩ true) := by
          split
          · exact ih _ ins
          · exact ih _ true
        exact List.Sublist.trans (List.Sublist.cons₂ e hX) (List.sublist_append_right _ _)

/-- In an ordered sequence with `start ≤ end` ranges, the head's end bounds
every later range's start. -/
theorem rangeChain_head_le :
    ∀ (e : RangeWithId) (rest : List RangeWithId),
      List.Chain' (fun a b => a.end_idx ≤ b.start_idx) (e :: rest) →
      (∀ r ∈ rest, r.start_idx ≤ r.end_idx) →
      ∀ r ∈ rest, e.end_idx ≤ r.start_idx := by
  intro e rest
  induction rest generalizing e with
  | nil => intro _ _ r hr; cases hr
  | cons c rest' ih =>
    intro hchain hle r hr
    have h1 : e.end_idx ≤ c.start_idx := (List.chain'_cons.mp hchain).1
    rcases List.mem_cons.mp hr with rfl | hr'
    · exact h1
    · have h2 := ih c (List.chain'_cons.mp hchain).2
        (fun x hx => hle x (List.mem_cons_of_mem _ hx)) r hr'
      have h3 : c.start_idx ≤ c.end_idx := hle c (List.mem_cons_self _ _)
      omega

/-- Every range in the scan's output starts at or after any lower bound `c`
that bounds both the cursor range and all existing ranges. -/
theorem addRangeLoop_start_lb :
    ∀ (l : List RangeWithId) (nr : RangeWithId) (ins : Bool) (c : Nat),
      c ≤ nr.start_idx → nr.start_idx ≤ nr.end_idx →
      (∀ r ∈ l, c ≤ r.start_idx) → (∀ r ∈ l, r.start_idx ≤ r.end_idx) →
      ∀ r ∈ addRangeLoop l nr ins, c ≤ r.start_idx := by
  intro l
  induction l with
  | nil =>
    intro nr ins c hc _ _ _ r hr
    simp only [addRangeLoop] at hr
    split at hr
    · cases hr
    · rw [List.mem_singleton] at hr; subst hr; exact hc
  | cons e rest ih =>
    intro nr ins c hc hne hl hse r hr
    have he_start : c ≤ e.start_idx := hl e (List.mem_cons_self _ _)
    have he_se : e.start_idx ≤ e.end_idx := hse e (List.mem_cons_self _ _)
    have hl' : ∀ x ∈ rest, c ≤ x.start_idx := fun x hx => hl x (List.mem_cons_of_mem _ hx)
    have hse' : ∀ x ∈ rest, x.start_idx ≤ x.end_idx := fun x hx => hse x (List.mem_cons_of_mem _ hx)
    simp only [addRangeLoop] at hr
    by_cases h1 : nr.end_idx ≤ e.start_idx
    · rw [if_pos h1] at hr
      by_cases hi : ins = true
      · rw [if_pos hi] at hr
        rcases List.mem_cons.mp hr with rfl | hr'
        · exact he_start
        · exact ih nr ins c hc hne hl' hse' r hr'
      · rw [if_neg hi] at hr
        rcases List.mem_cons.mp hr with rfl | hr'
        · exact hc
        · rcases List.mem_cons.mp hr' with rfl | hr''
          · exact he_start
          · exact ih nr true c hc hne hl' hse' r hr''
    · rw [if_neg h1] at hr
      by_cases h2 : e.end_idx ≤ nr.start_idx
      · rw [if_pos h2] at hr
        rcases List.mem_cons.mp hr with rfl | hr'
        · exact he_start
        · exact ih nr ins c hc hne hl' hse' r hr'
      · rw [if_neg h2] at hr
        rw [List.mem_append] at hr
        rcases hr with hsl | hr
        · by_cases hs : ins = false ∧ nr.start_idx < e.start_idx
          · rw [if_pos hs] at hsl
            rw [List.mem_singleton] at hsl
            subst hsl
            exact hc
          · rw [if_neg hs] at hsl
            cases hsl
        · rcases List.mem_cons.mp hr with rfl | hr'
          · exact he_start
          · by_cases h3 : e.end_idx < nr.end_idx
            · rw [if_pos h3] at hr'
              exact ih ⟨e.end_idx, nr.end_idx, nr.id⟩ ins c
                (show c ≤ e.end_idx by omega) (show e.end_idx ≤ nr.end_idx by omega)
                hl' hse' r hr'
            · rw [if_neg h3] at hr'
              exact ih ⟨nr.end_idx, nr.end_idx, nr.id⟩ true c
                (show c ≤ nr.end_idx by omega) (show nr.end_idx ≤ nr.end_idx from le_rfl)
                hl' hse' r hr'

/-- The scan started with `inserted = false` on an ordered sequence of
non-empty ranges, given a non-empty new range, yields an ordered sequence of
non-empty ranges. -/
theorem addRangeLoop_ordered :
    ∀ (l : List RangeWithId) (nr : RangeWithId),
      List.Chain' (fun a b => a.end_idx ≤ b.start_idx) l →
      (∀ r ∈ l, r.start_idx < r.end_idx) →
      nr.start_idx < nr.end_idx →
      List.Chain' (fun a b => a.end_idx ≤ b.start_idx) (addRangeLoop l nr false) ∧
        ∀ r ∈ addRangeLoop l nr false, r.start_idx < r.end_idx := by
  intro l
  induction l with
  | nil =>
    intro nr _ _ hnr
    have hres : addRangeLoop [] nr false = [nr] := by simp [addRangeLoop]
    rw [hres]
    refine ⟨List.chain'_singleton nr, ?_⟩
    intro r hr
    rw [List.mem_singleton] at hr
    subst hr
    exact hnr
  | cons e rest ih =>
    intro nr hchain hmem hnr
    have hchain' : List.Chain' (fun a b => a.end_idx ≤ b.start_idx) rest :=
      (List.chain'_cons'.mp hchain).2
    have hmem' : ∀ r ∈ rest, r.start_idx < r.end_idx :=
      fun x hx => hmem x (List.mem_cons_of_mem _ hx)
    have he : e.start_idx < e.end_idx := hmem e (List.mem_cons_self _ _)
    have hrest_lb : ∀ r ∈ rest, e.end_idx ≤ r.start_idx :=
      rangeChain_head_le e rest hchain (fun x hx => le_of_lt (hmem' x hx))
    by_cases h1 : nr.end_idx ≤ e.start_idx
    · have hres : addRangeLoop (e :: rest) nr false = nr :: e :: rest := by
        simp [addRangeLoop, h1, addRangeLoop_inserted]
      rw [hres]
      refine ⟨List.chain'_cons.mpr ⟨h1, hchain⟩, ?_⟩
      intro r hr
      rcases List.mem_cons.mp hr with rfl | hr'
      · exact hnr
      · exact hmem r hr'
    · by_cases h2 : e.end_idx ≤ nr.start_idx
      · have hres : addRangeLoop (e :: rest) nr false = e :: addRangeLoop rest nr false := by
          simp [addRangeLoop, h1, h2]
        rw [hres]
        obtain ⟨ihc, ihm⟩ := ih nr hchain' hmem' hnr
        refine ⟨List.chain'_cons'.mpr ⟨?_, ihc⟩, ?_⟩
        · intro y hy
          exact addRangeLoop_start_lb rest nr false e.end_idx h2 (le_of_lt hnr)
            hrest_lb (fun x hx => le_of_lt (hmem' x hx)) y (List.mem_of_mem_head? hy)
        · intro r hr
          rcases List.mem_cons.mp hr with rfl | hr'
          · exact he
          · exact ihm r hr'
      · by_cases hs : nr.start_idx < e.start_idx
        · by_cases h3 : e.end_idx < nr.end_idx
          · have hres : addRangeLoop (e :: rest) nr false =
                ⟨nr.start_idx, e.start_idx, nr.id⟩ :: e ::
                  addRangeLoop rest ⟨e.end_idx, nr.end_idx, nr.id⟩ false := by
              simp [addRangeLoop, h1, h2, hs, h3]
            rw [hres]
            obtain ⟨ihc, ihm⟩ := ih ⟨e.end_idx, nr.end_idx, nr.id⟩ hchain' hmem'
              (show e.end_idx < nr.end_idx from h3)
            refine ⟨List.chain'_cons.mpr ⟨le_rfl, List.chain'_cons'.mpr ⟨?_, ihc⟩⟩, ?_⟩
            · intro y hy
              exact addRangeLoop_start_lb rest ⟨e.end_idx, nr.end_idx, nr.id⟩ false e.end_idx
                le_rfl (show e.end_idx ≤ nr.end_idx from le_of_lt h3)
                hrest_lb (fun x hx => le_of_lt (hmem' x hx)) y (List.mem_of_mem_head? hy)
            · intro r hr
              rcases List.mem_cons.mp hr with rfl | hr'
              · exact hs
              · rcases List.mem_cons.mp hr' with rfl | hr''
                · exact he
                · exact ihm r hr''
          · have hres : addRangeLoop (e :: rest) nr false =
                ⟨nr.start_idx, e.start_idx, nr.id⟩ :: e :: rest := by
              simp [addRangeLoop, h1, h2, hs, h3, addRangeLoop_inserted]
            rw [hres]
            refine ⟨List.chain'_cons.mpr ⟨le_rfl, hchain⟩, ?_⟩
            intro r hr
            rcases List.mem_cons.mp hr with rfl | hr'
            · exact hs
            · exact hmem r hr'
        · by_cases h3 : e.end_idx < nr.end_idx
          · have hres : addRangeLoop (e :: rest) nr false =
                e :: addRangeLoop rest ⟨e.end_idx, nr.end_idx, nr.id⟩ false := by
              simp [addRangeLoop, h1, h2, hs, h3]
            rw [hres]
            obtain ⟨ihc, ihm⟩ := ih ⟨e.end_idx, nr.end_idx, nr.id⟩ hchain' hmem'
              (show e.end_idx < nr.end_idx from h3)
            refine ⟨List.chain'_cons'.mpr ⟨?_, ihc⟩, ?_⟩
            · intro y hy
              exact addRangeLoop_start_lb rest ⟨e.end_idx, nr.end_idx, nr.id⟩ false e.end_idx
                le_rfl (show e.end_idx ≤ nr.end_idx from le_of_lt h3)
                hrest_lb (fun x hx => le_of_lt (hmem' x hx)) y (List.mem_of_mem_head? hy)
            · intro r hr
              rcases List.mem_cons.mp hr with rfl | hr'
              · exact he
              · exact ihm r hr'
          · have hres : addRangeLoop (e :: rest) nr false = e :: rest := by
              simp [addRangeLoop, h1, h2, hs, h3, addRangeLoop_inserted]
            rw [hres]
            exact ⟨hchain, hmem⟩

/-- `add_range` preserves the well-formedness invariant when the new range is
non-empty. -/
theorem addRange_keeps_ordered (l : List RangeWithId) (nr : RangeWithId)
    (h : rangesOrdered l) (hnr : nr.start_idx < nr.end_idx) :
    rangesOrdered (add_range l nr) := by
  obtain ⟨hc, hm⟩ := h
  exact addRangeLoop_ordered l nr hc hm hnr

/-- Folding `add_range` over any list of non-empty candidate ranges keeps the
invariant. -/
theorem foldl_addRange_ordered :
    ∀ (inserts : List RangeWithId) (acc : List RangeWithId),
      rangesOrdered acc → (∀ r ∈ inserts, r.start_idx < r.end_idx) →
      rangesOrdered (inserts.foldl add_range acc) := by
  intro inserts
  induction inserts with
  | nil => intro acc hacc _; exact hacc
  | cons r rest ih =>
    intro acc hacc hmem
    exact ih (add_range acc r)
      (addRange_keeps_ordered acc r hacc (hmem r (List.mem_cons_self _ _)))
      (fun x hx => hmem x (List.mem_cons_of_mem _ hx))

/-- A chain of `end ≤ start` over ranges with `start ≤ end` is pairwise. -/
theorem chainRanges_pairwise :
    ∀ (l : List RangeWithId), List.Chain' (fun a b => a.end_idx ≤ b.start_idx) l →
      (∀ r ∈ l, r.start_idx ≤ r.end_idx) →
      l.Pairwise (fun a b => a.end_idx ≤ b.start_idx) := by
  intro l
  induction l with
  | nil => intro _ _; exact List.Pairwise.nil
  | cons e rest ih =>
    intro hc hm
    refine List.Pairwise.cons ?_
      (ih (List.chain'_cons'.mp hc).2 (fun x hx => hm x (List.mem_cons_of_mem _ hx)))
    exact fun b hb => rangeChain_head_le e rest hc
      (fun x hx => hm x (List.mem_cons_of_mem _ hx)) b hb

/-- C4: for every sequence of `add_range` calls starting from the empty
sequence, where each supplied range satisfies `start < end`, the resulting
sequence is sorted ascending by start and adjacent ranges satisfy
`ranges[i].end ≤ ranges[i+1].start` (non-overlapping, touching allowed). -/
theorem addRange_fold_sorted_nonoverlapping (inserts : List RangeWithId)
    (h : ∀ r ∈ inserts, r.start_idx < r.end_idx) :
    (inserts.foldl add_range []).Pairwise (fun a b => a.start_idx ≤ b.start_idx) ∧
      List.Chain' (fun a b => a.end_idx ≤ b.start_idx) (inserts.foldl add_range []) := by
  have hor : rangesOrdered (inserts.foldl add_range []) :=
    foldl_addRange_ordered inserts [] ⟨List.chain'_nil, by simp⟩ h
  obtain ⟨hc, hm⟩ := hor
  refine ⟨?_, hc⟩
  have hp := chainRanges_pairwise _ hc (fun r hr => le_of_lt (hm r hr))
  refine hp.imp_of_mem ?_
  intro a b ha _ hab
  have := hm a ha
  omega

/-- Witness for C4 at the repository's `partial_overlap` test data. -/
theorem addRange_fold_sorted_nonoverlapping_witness :
    (∀ r ∈ ([⟨1, 3, 0⟩, ⟨5, 8, 1⟩, ⟨2, 6, 2⟩] : List RangeWithId),
      r.start_idx < r.end_idx) ∧
    ((([⟨1, 3, 0⟩, ⟨5, 8, 1⟩, ⟨2, 6, 2⟩] : List RangeWithId).foldl
        add_range []).Pairwise (fun a b => a.start_idx ≤ b.start_idx) ∧
      List.Chain' (fun a b => a.end_idx ≤ b.start_idx)
        (([⟨1, 3, 0⟩, ⟨5, 8, 1⟩, ⟨2, 6, 2⟩] : List RangeWithId).foldl add_range [])) :=
  ⟨by decide, addRange_fold_sorted_nonoverlapping _ (by decide)⟩

/-- Every range in the scan's output either is one of the existing ranges or
is a piece of the original new range, carrying its color id. -/
theorem addRangeLoop_new_pieces :
    ∀ (l : List RangeWithId) (cur orig : RangeWithId),
      cur.id = orig.id → orig.start_idx ≤ cur.start_idx → cur.end_idx = orig.end_idx →
      ∀ r ∈ addRangeLoop l cur false,
        r ∈ l ∨ (r.id = orig.id ∧ orig.start_idx ≤ r.start_idx ∧
          r.end_idx ≤ orig.end_idx) := by
  intro l
  induction l with
  | nil =>
    intro cur orig hid hst hend r hr
    have hres : addRangeLoop [] cur false = [cur] := by simp [addRangeLoop]
    rw [hres, List.mem_singleton] at hr
    subst hr
    right
    exact ⟨hid, hst, le_of_eq hend⟩
  | cons e rest ih =>
    intro cur orig hid hst hend r hr
    by_cases h1 : cur.end_idx ≤ e.start_idx
    · have hres : addRangeLoop (e :: rest) cur false = cur :: e :: rest := by
        simp [addRangeLoop, h1, addRangeLoop_inserted]
      rw [hres] at hr
      rcases List.mem_cons.mp hr with rfl | hr'
      · right; exact ⟨hid, hst, le_of_eq hend⟩
      · left; exact hr'
    · by_cases h2 : e.end_idx ≤ cur.start_idx
      · have hres : addRangeLoop (e :: rest) cur false = e :: addRangeLoop rest cur false := by
          simp [addRangeLoop, h1, h2]
        rw [hres] at hr
        rcases List.mem_cons.mp hr with rfl | hr'
        · left; exact List.mem_cons_self _ _
        · rcases ih cur orig hid hst hend r hr' with hin | hnew
          · left; exact List.mem_cons_of_mem _ hin
          · right; exact hnew
      · by_cases hs : cur.start_idx < e.start_idx
        · by_cases h3 : e.end_idx < cur.end_idx
          · have hres : addRangeLoop (e :: rest) cur false =
                ⟨cur.start_idx, e.start_idx, cur.id⟩ :: e ::
                  addRangeLoop rest ⟨e.end_idx, cur.end_idx, cur.id⟩ false := by
              simp [addRangeLoop, h1, h2, hs, h3]
            rw [hres] at hr
            rcases List.mem_cons.mp hr with rfl | hr'
            · right
              refine ⟨hid, hst, ?_⟩
              show e.start_idx ≤ orig.end_idx
              omega
            · rcases List.mem_cons.mp hr' with rfl | hr''
              · left; exact List.mem_cons_self _ _
              · rcases ih ⟨e.end_idx, cur.end_idx, cur.id⟩ orig hid
                  (show orig.start_idx ≤ e.end_idx by omega) hend r hr'' with hin | hnew
                · left; exact List.mem_cons_of_mem _ hin
                · right; exact hnew
          · have hres : addRangeLoop (e :: rest) cur false =
                ⟨cur.start_idx, e.start_idx, cur.id⟩ :: e :: rest := by
              simp [addRangeLoop, h1, h2, hs, h3, addRangeLoop_inserted]
            rw [hres] at hr
            rcases List.mem_cons.mp hr with rfl | hr'
            · right
              refine ⟨hid, hst, ?_⟩
              show e.start_idx ≤ orig.end_idx
              omega
            · left; exact hr'
        · by_cases h3 : e.end_idx < cur.end_idx
          · have hres : addRangeLoop (e :: rest) cur false =
                e :: addRangeLoop rest ⟨e.end_idx, cur.end_idx, cur.id⟩ false := by
              simp [addRangeLoop, h1, h2, hs, h3]
            rw [hres] at hr
            rcases List.mem_cons.mp hr with rfl | hr'
            · left; exact List.mem_cons_self _ _
            · rcases ih ⟨e.end_idx, cur.end_idx, cur.id⟩ orig hid
                (show orig.start_idx ≤ e.end_idx by omega) hend r hr' with hin | hnew
              · left; exact List.mem_cons_of_mem _ hin
              · right; exact hnew
          · have hres : addRangeLoop (e :: rest) cur false = e :: rest := by
              simp [addRangeLoop, h1, h2, hs, h3, addRangeLoop_inserted]
            rw [hres] at hr
            left; exact hr

/-- C5: every range present in the sequence before a call to `add_range` is
still present, unaltered and in the same relative order, afterwards (the
original list is a sublist of the result); every other range of the result
is a clipped piece of the supplied new range, carrying its id. -/
theorem addRange_preserves_existing (ranges : List RangeWithId) (new_range : RangeWithId) :
    ranges.Sublist (add_range ranges new_range) ∧
      ∀ r ∈ add_range ranges new_range,
        r ∈ ranges ∨ (r.id = new_range.id ∧ new_range.start_idx ≤ r.start_idx ∧
          r.end_idx ≤ new_range.end_idx) :=
  ⟨addRangeLoop_sublist ranges new_range false,
    addRangeLoop_new_pieces ranges new_range new_range rfl le_rfl rfl⟩

/-- Witness for C5 at the repository's `partial_overlap` test data. -/
theorem addRange_preserves_existing_witness :
    ([⟨1, 3, 0⟩, ⟨5, 8, 1⟩] : List RangeWithId).Sublist
      (add_range [⟨1, 3, 0⟩, ⟨5, 8, 1⟩] ⟨2, 6, 2⟩) ∧
    ((⟨3, 5, 2⟩ : RangeWithId) ∈ ([⟨1, 3, 0⟩, ⟨5, 8, 1⟩] : List RangeWithId) ∨
      ((⟨3, 5, 2⟩ : RangeWithId).id = (⟨2, 6, 2⟩ : RangeWithId).id ∧
        (⟨2, 6, 2⟩ : RangeWithId).start_idx ≤ (⟨3, 5, 2⟩ : RangeWithId).start_idx ∧
        (⟨3, 5, 2⟩ : RangeWithId).end_idx ≤ (⟨2, 6, 2⟩ : RangeWithId).end_idx)) :=
  ⟨(addRange_preserves_existing [⟨1, 3, 0⟩, ⟨5, 8, 1⟩] ⟨2, 6, 2⟩).1,
    (addRange_preserves_existing [⟨1, 3, 0⟩, ⟨5, 8, 1⟩] ⟨2, 6, 2⟩).2 ⟨3, 5, 2⟩ (by decide)⟩

/-- Existing ranges that end before the new range starts are passed over
unchanged by the scan. -/
theorem addRangeLoop_skip_pre :
    ∀ (pre tail : List RangeWithId) (nr : RangeWithId),
      nr.start_idx < nr.end_idx →
      (∀ x ∈ pre, x.start_idx < x.end_idx) →
      (∀ x ∈ pre, x.end_idx ≤ nr.start_idx) →
      addRangeLoop (pre ++ tail) nr false = pre ++ addRangeLoop tail nr false := by
  intro pre
  induction pre with
  | nil => intro tail nr _ _ _; rfl
  | cons x pre' ih =>
    intro tail nr hnr hne hle
    have hx1 : x.start_idx < x.end_idx := hne x (List.mem_cons_self _ _)
    have hx2 : x.end_idx ≤ nr.start_idx := hle x (List.mem_cons_self _ _)
    have h1 : ¬ (nr.end_idx ≤ x.start_idx) := by omega
    have hres : addRangeLoop (x :: (pre' ++ tail)) nr false =
        x :: addRangeLoop (pre' ++ tail) nr false := by
      simp [addRangeLoop, h1, hx2]
    rw [List.cons_append, hres,
      ih tail nr hnr (fun y hy => hne y (List.mem_cons_of_mem _ hy))
        (fun y hy => hle y (List.mem_cons_of_mem _ hy)), List.cons_append]

/-- C8: inserting a new non-empty range whose interval is contained in the
interval of some range of a well-formed sequence leaves the sequence
completely unchanged. -/
theorem addRange_contained_noop (l : List RangeWithId) (c nr : RangeWithId)
    (hord : rangesOrdered l) (hc : c ∈ l)
    (h1 : c.start_idx ≤ nr.start_idx) (h2 : nr.start_idx < nr.end_idx)
    (h3 : nr.end_idx ≤ c.end_idx) :
    add_range l nr = l := by
  obtain ⟨pre, post, rfl⟩ := List.append_of_mem hc
  obtain ⟨hchain, hmem⟩ := hord
  have hpair := chainRanges_pairwise _ hchain (fun r hr => le_of_lt (hmem r hr))
  have hpre_lt : ∀ x ∈ pre, x.start_idx < x.end_idx :=
    fun x hx => hmem x (List.mem_append_left _ hx)
  have hpre_le : ∀ x ∈ pre, x.end_idx ≤ nr.start_idx := by
    intro x hx
    have hxc : x.end_idx ≤ c.start_idx :=
      (List.pairwise_append.mp hpair).2.2 x hx c (List.mem_cons_self _ _)
    omega
  show addRangeLoop (pre ++ c :: post) nr false = pre ++ c :: post
  rw [addRangeLoop_skip_pre pre (c :: post) nr h2 hpre_lt hpre_le]
  congr 1
  have hb1 : ¬ (nr.end_idx ≤ c.start_idx) := by omega
  have hb2 : ¬ (c.end_idx ≤ nr.start_idx) := by omega
  have hs : ¬ (nr.start_idx < c.start_idx) := by omega
  have h3' : ¬ (c.end_idx < nr.end_idx) := by omega
  simp [addRangeLoop, hb1, hb2, hs, h3', addRangeLoop_inserted]

/-- Witness for C8 at the repository's `full_overlap` test data. -/
theorem addRange_contained_noop_witness :
    rangesOrdered ([⟨1, 3, 0⟩, ⟨5, 8, 1⟩] : List RangeWithId) ∧
    add_range [⟨1, 3, 0⟩, ⟨5, 8, 1⟩] ⟨6, 7, 2⟩ = [⟨1, 3, 0⟩, ⟨5, 8, 1⟩] :=
  ⟨by decide,
    addRange_contained_noop [⟨1, 3, 0⟩, ⟨5, 8, 1⟩] ⟨5, 8, 1⟩ ⟨6, 7, 2⟩
      (by decide) (by decide) (by decide) (by decide) (by decide)⟩

/-- A zero-length range lying after all existing ranges is pushed at the end
of the scan. -/
theorem addRangeLoop_zero_after :
    ∀ (l : List RangeWithId) (nr : RangeWithId),
      nr.start_idx = nr.end_idx →
      (∀ r ∈ l, r.start_idx < r.end_idx) →
      (∀ r ∈ l, r.end_idx ≤ nr.start_idx) →
      addRangeLoop l nr false = l ++ [nr] := by
  intro l
  induction l with
  | nil => intro nr _ _ _; simp [addRangeLoop]
  | cons e rest ih =>
    intro nr hz hne hafter
    have he1 : e.start_idx < e.end_idx := hne e (List.mem_cons_self _ _)
    have he2 : e.end_idx ≤ nr.start_idx := hafter e (List.mem_cons_self _ _)
    have h1 : ¬ (nr.end_idx ≤ e.start_idx) := by omega
    have hres : addRangeLoop (e :: rest) nr false = e :: addRangeLoop rest nr false := by
      simp [addRangeLoop, h1, he2]
    rw [hres, ih nr hz (fun x hx => hne x (List.mem_cons_of_mem _ hx))
      (fun x hx => hafter x (List.mem_cons_of_mem _ hx)), List.cons_append]

/-- C10: `add_range` does not reject a zero-length new range; one lying
after every existing range (in particular on an empty sequence) is appended,
so the resulting sequence can contain empty ranges. -/
theorem addRange_zero_length_inserted (l : List RangeWithId) (nr : RangeWithId)
    (hz : nr.start_idx = nr.end_idx)
    (hne : ∀ r ∈ l, r.start_idx < r.end_idx)
    (hafter : ∀ r ∈ l, r.end_idx ≤ nr.start_idx) :
    add_range l nr = l ++ [nr] ∧ nr ∈ add_range l nr := by
  have h : add_range l nr = l ++ [nr] := addRangeLoop_zero_after l nr hz hne hafter
  refine ⟨h, ?_⟩
  rw [h]
  exact List.mem_append_right _ (List.mem_singleton.mpr rfl)

/-- Witness for C10: the zero-length range ⟨3, 3⟩ is appended after ⟨0, 2⟩. -/
theorem addRange_zero_length_inserted_witness :
    add_range [⟨0, 2, 0⟩] ⟨3, 3, 1⟩ = [⟨0, 2, 0⟩, ⟨3, 3, 1⟩] ∧
      (⟨3, 3, 1⟩ : RangeWithId) ∈ add_range [⟨0, 2, 0⟩] ⟨3, 3, 1⟩ :=
  addRange_zero_length_inserted [⟨0, 2, 0⟩] ⟨3, 3, 1⟩ rfl (by decide) (by decide)

/-- `match_line`'s pattern loop is the fold of `add_range` over the flat
candidate list, in feeding order. -/
theorem matchLineGo_eq_foldl :
    ∀ (regexps : List LineRegex) (color_idx : Nat) (vary_group_colors full_match_highlight : Bool)
      (acc : List RangeWithId),
      matchLineGo regexps color_idx vary_group_colors full_match_highlight acc =
        (flatCandidatesGo regexps color_idx vary_group_colors full_match_highlight).foldl
          add_range acc := by
  intro regexps
  induction regexps with
  | nil => intro c v f acc; rfl
  | cons re rest ih =>
    intro c v f acc
    simp only [matchLineGo, flatCandidatesGo, List.foldl_append]
    exact ih _ v f _

/-- A covered position keeps its color through a later `add_range` call. -/
theorem coversWith_addRange (l : List RangeWithId) (nr : RangeWithId) (p c : Nat)
    (h : coversWith l p c) : coversWith (add_range l nr) p c := by
  obtain ⟨r, hr, hp⟩ := h
  exact ⟨r, (addRangeLoop_sublist l nr false).subset hr, hp⟩

/-- A covered position keeps its color through any sequence of later
`add_range` calls. -/
theorem coversWith_foldl :
    ∀ (cands : List RangeWithId) (acc : List RangeWithId) (p c : Nat),
      coversWith acc p c → coversWith (cands.foldl add_range acc) p c := by
  intro cands
  induction cands with
  | nil => intro acc p c h; exact h
  | cons r rest ih =>
    intro acc p c h
    exact ih (add_range acc r) p c (coversWith_addRange acc r p c h)

/-- C2: the compiled regex list is the caller-supplied pattern list reversed,
so the last-listed pattern is processed first and its ranges are inserted
first; any position it covers in the merged list (with its color) is still
covered with that color after the earlier-listed pattern's overlapping
ranges are processed — the last-listed pattern wins the overlap. -/
theorem lastListed_pattern_wins (first_pat last_pat : LineRegex)
    (vary_group_colors full_match_highlight : Bool) (p c : Nat)
    (hoverlap : reportsAt first_pat p = true)
    (hcov : coversWith (match_line [last_pat] vary_group_colors full_match_highlight) p c) :
    coversWith
      (match_line (runRegexOrder [first_pat, last_pat]) vary_group_colors full_match_highlight)
      p c := by
  have horder : runRegexOrder [first_pat, last_pat] = [last_pat, first_pat] := rfl
  rw [horder]
  have h1 : match_line [last_pat, first_pat] vary_group_colors full_match_highlight =
      (flatCandidatesGo [first_pat]
          (colorStep last_pat vary_group_colors full_match_highlight)
          vary_group_colors full_match_highlight).foldl add_range
        (match_line [last_pat] vary_group_colors full_match_highlight) := by
    unfold match_line
    rw [matchLineGo_eq_foldl, matchLineGo_eq_foldl]
    simp [flatCandidatesGo, List.foldl_append]
  rw [h1]
  exact coversWith_foldl _ _ p c hcov

/-- Witness for C2: patterns reported as matching [0,2) (first-listed) and
[1,3) (last-listed) overlap at position 1, which stays colored with the
last-listed pattern's color 0. -/
theorem lastListed_pattern_wins_witness :
    reportsAt ⟨1, [⟨[some (0, 2)]⟩]⟩ 1 = true ∧
    coversWith (match_line [⟨1, [⟨[some (1, 3)]⟩]⟩] false false) 1 0 ∧
    coversWith
      (match_line (runRegexOrder [⟨1, [⟨[some (0, 2)]⟩]⟩, ⟨1, [⟨[some (1, 3)]⟩]⟩]) false false)
      1 0 :=
  ⟨by decide, by decide,
    lastListed_pattern_wins ⟨1, [⟨[some (0, 2)]⟩]⟩ ⟨1, [⟨[some (1, 3)]⟩]⟩ false false 1 0
      (by decide) (by decide)⟩

/-- The candidates of one pattern at counter value `c` are the candidates at
counter 0 with every id shifted by `c`. -/
theorem matchCandidates_base (re : LineRegex) (c : Nat)
    (vary_group_colors full_match_highlight : Bool) :
    matchCandidates re c vary_group_colors full_match_highlight =
      (matchCandidates re 0 vary_group_colors full_match_highlight).map
        (fun r => ⟨r.start_idx, r.end_idx, c + r.id⟩) := by
  unfold matchCandidates
  induction re.matchList with
  | nil => rfl
  | cons m ml ih =>
    simp only [List.foldr_cons, List.map_append, ih]
    congr 1
    rw [List.map_filterMap]
    congr 1
    funext i
    cases hg : m.groups.getD (i + first_group_to_colorize re full_match_highlight) none with
    | none => rfl
    | some g => simp

/-- Closed form of the flat candidate list: pattern `k`'s candidates carry
ids shifted by the prefix sum of the color steps of the patterns before it. -/
theorem flatCandidatesGo_eq :
    ∀ (regexps : List LineRegex) (vary_group_colors full_match_highlight : Bool) (c : Nat),
      flatCandidatesGo regexps c vary_group_colors full_match_highlight =
        ((List.range regexps.length).map (fun k =>
          (matchCandidates (patternAt regexps k) 0 vary_group_colors full_match_highlight).map
            (fun r => ⟨r.start_idx, r.end_idx,
              (c + colorIdxBefore regexps vary_group_colors full_match_highlight k) +
                r.id⟩))).flatten := by
  intro regexps
  induction regexps with
  | nil => intro v f c; rfl
  | cons re rest ih =>
    intro v f c
    simp only [flatCandidatesGo, List.length_cons, List.range_succ_eq_map, List.map_cons,
      List.flatten_cons, List.map_map]
    congr 1
    · have hc0 : colorIdxBefore (re :: rest) v f 0 = 0 := rfl
      have hp : patternAt (re :: rest) 0 = re := rfl
      rw [hp, hc0, Nat.add_zero]
      exact matchCandidates_base re c v f
    · rw [ih v f (c + colorStep re v f)]
      congr 1
      refine List.map_congr_left ?_
      intro k _
      have hps : patternAt (re :: rest) (k + 1) = patternAt rest k := rfl
      have hcs : colorIdxBefore (re :: rest) v f (k + 1) =
          colorStep re v f + colorIdxBefore rest v f k := by
        unfold colorIdxBefore
        simp [List.take_succ_cons]
      simp only [Function.comp_apply, Nat.succ_eq_add_one, hps, hcs]
      refine List.map_congr_left ?_
      intro r _
      congr 1
      omega

/-- Every candidate range produced for one pattern comes from a participating
group of one of its matches: group index `i` below the colorizable count,
offsets exactly as reported, id exactly `c` plus the per-group offset. -/
theorem foldrCandidates_mem :
    ∀ (ml : List CaptureMatch) (g2c fg : Nat) (v : Bool) (c : Nat) (r : RangeWithId),
      r ∈ ml.foldr (fun m acc =>
        ((List.range g2c).filterMap (fun i =>
          (m.groups.getD (i + fg) none).map
            (fun g => ⟨g.1, g.2, c + (if v then g2c - 1 - i else 0)⟩))) ++ acc) [] →
      ∃ m ∈ ml, ∃ i, i < g2c ∧
        m.groups.getD (i + fg) none = some (r.start_idx, r.end_idx) ∧
        r.id = c + (if v then g2c - 1 - i else 0) := by
  intro ml g2c fg v c r
  induction ml with
  | nil => intro hr; cases hr
  | cons m ml' ih =>
    intro hr
    simp only [List.foldr_cons, List.mem_append] at hr
    rcases hr with hin | hin
    · rw [List.mem_filterMap] at hin
      obtain ⟨i, hi, hmap⟩ := hin
      refine ⟨m, List.mem_cons_self _ _, i, List.mem_range.mp hi, ?_⟩
      cases hg : m.groups.getD (i + fg) none with
      | none => rw [hg] at hmap; cases hmap
      | some g =>
        rw [hg] at hmap
        simp only [Option.map_some', Option.some.injEq] at hmap
        subst hmap
        exact ⟨by simp, rfl⟩
    · obtain ⟨m', hm', rest⟩ := ih hin
      exact ⟨m', List.mem_cons_of_mem _ hm', rest⟩

/-- C7: the color counter starts at 0 and advances by `colorStep` per
pattern, so `match_line` folds `add_range` over candidates whose ids are the
prefix sum `colorIdxBefore` of the pattern position plus the per-group
offset; within one pattern at counter `c` every candidate's id is
`c + (groupsToColorize - 1 - i)` with per-group variation and `c` without —
a deterministic function of pattern position, group index and flags. -/
theorem matchLine_colorId_assignment (regexps : List LineRegex)
    (vary_group_colors full_match_highlight : Bool) :
    match_line regexps vary_group_colors full_match_highlight =
      (((List.range regexps.length).map (fun k =>
        (matchCandidates (patternAt regexps k) 0 vary_group_colors full_match_highlight).map
          (fun r => ⟨r.start_idx, r.end_idx,
            colorIdxBefore regexps vary_group_colors full_match_highlight k +
              r.id⟩))).flatten).foldl add_range [] ∧
    ∀ (re : LineRegex) (c : Nat) (r : RangeWithId),
      r ∈ matchCandidates re c vary_group_colors full_match_highlight →
      ∃ i, i < groups_to_colorize re full_match_highlight ∧
        r.id = c + (if vary_group_colors then
          groups_to_colorize re full_match_highlight - 1 - i else 0) := by
  constructor
  · unfold match_line
    rw [matchLineGo_eq_foldl, flatCandidatesGo_eq]
    simp only [Nat.zero_add]
  · intro re c r hr
    unfold matchCandidates at hr
    obtain ⟨m, _, i, hi, _, hid⟩ := foldrCandidates_mem re.matchList
      (groups_to_colorize re full_match_highlight)
      (first_group_to_colorize re full_match_highlight) vary_group_colors c r hr
    exact ⟨i, hi, hid⟩

/-- Witness for C7 at a one-pattern input, with the membership hypothesis of
the second conjunct discharged at a concrete candidate. -/
theorem matchLine_colorId_assignment_witness :
    (match_line [⟨1, [⟨[some (0, 1)]⟩]⟩] false false =
      (((List.range (1 : Nat)).map (fun k =>
        (matchCandidates (patternAt [⟨1, [⟨[some (0, 1)]⟩]⟩] k) 0 false false).map
          (fun r => ⟨r.start_idx, r.end_idx,
            colorIdxBefore [⟨1, [⟨[some (0, 1)]⟩]⟩] false false k +
              r.id⟩))).flatten).foldl add_range []) ∧
    ∃ i, i < groups_to_colorize ⟨1, [⟨[some (2, 3)]⟩]⟩ false ∧
      (⟨2, 3, 5⟩ : RangeWithId).id = 5 + (if false then
        groups_to_colorize ⟨1, [⟨[some (2, 3)]⟩]⟩ false - 1 - i else 0) :=
  ⟨(matchLine_colorId_assignment [⟨1, [⟨[some (0, 1)]⟩]⟩] false false).1,
    (matchLine_colorId_assignment [⟨1, [⟨[some (0, 1)]⟩]⟩] false false).2
      ⟨1, [⟨[some (2, 3)]⟩]⟩ 5 ⟨2, 3, 5⟩ (by decide)⟩

/-- A successful `getD _ none` lookup is a membership in the group list. -/
theorem getD_none_some_mem :
    ∀ (gs : List (Option (Nat × Nat))) (n : Nat) (x : Nat × Nat),
      gs.getD n none = some x → some x ∈ gs := by
  intro gs
  induction gs with
  | nil => intro n x h; simp [List.getD] at h
  | cons g gs' ih =>
    intro n x h
    cases n with
    | zero =>
      simp only [List.getD_cons_zero] at h
      exact h ▸ List.mem_cons_self _ _
    | succ n' =>
      simp only [List.getD_cons_succ] at h
      exact List.mem_cons_of_mem _ (ih n' x h)

/-- C6 counterexample: a zero-length matcher-reported range (as the regex
crate reports for a pattern like `a*`) is NOT filtered out by `match_line`;
it is fed to `add_range` as a candidate and even survives into the result. -/
theorem matchLine_zero_length_not_filtered :
    ¬ (∀ r ∈ matchCandidates ⟨1, [⟨[some (2, 2)]⟩]⟩ 0 false false,
        r.start_idx < r.end_idx) ∧
    matchCandidates ⟨1, [⟨[some (2, 2)]⟩]⟩ 0 false false = [⟨2, 2, 0⟩] ∧
    match_line [⟨1, [⟨[some (2, 2)]⟩]⟩] false false = [⟨2, 2, 0⟩] := by decide

/-- C6 amended: `match_line` feeds every participating group's
matcher-reported range to `add_range` unchanged, with no zero-length
filtering; whenever the matcher's reported offsets satisfy `start ≤ end`, so
does every fed range — but `start < end` is not guaranteed. -/
theorem matchCandidates_start_le_end (re : LineRegex) (color_idx : Nat)
    (vary_group_colors full_match_highlight : Bool)
    (h : ∀ m ∈ re.matchList, ∀ g ∈ m.groups, (g.getD (0, 0)).1 ≤ (g.getD (0, 0)).2) :
    ∀ r ∈ matchCandidates re color_idx vary_group_colors full_match_highlight,
      r.start_idx ≤ r.end_idx := by
  intro r hr
  unfold matchCandidates at hr
  obtain ⟨m, hm, i, _, hsome, _⟩ := foldrCandidates_mem re.matchList
    (groups_to_colorize re full_match_highlight)
    (first_group_to_colorize re full_match_highlight) vary_group_colors color_idx r hr
  have hmem : some (r.start_idx, r.end_idx) ∈ m.groups :=
    getD_none_some_mem m.groups (i + first_group_to_colorize re full_match_highlight)
      (r.start_idx, r.end_idx) hsome
  simpa using h m hm (some (r.start_idx, r.end_idx)) hmem

/-- Witness for C6's amended statement at a concrete matcher report. -/
theorem matchCandidates_start_le_end_witness :
    (∀ m ∈ ([⟨[some (0, 2)]⟩] : List CaptureMatch), ∀ g ∈ m.groups,
      (g.getD (0, 0)).1 ≤ (g.getD (0, 0)).2) ∧
    ∀ r ∈ matchCandidates ⟨1, [⟨[some (0, 2)]⟩]⟩ 0 false false,
      r.start_idx ≤ r.end_idx :=
  ⟨by decide, matchCandidates_start_le_end ⟨1, [⟨[some (0, 2)]⟩]⟩ 0 false false (by decide)⟩

/-- Once placed, the amended spec scan copies the remaining ranges unchanged
and the flag stays set. -/
theorem scanSpecAmended_placed :
    ∀ (l : List RangeWithId) (nr : RangeWithId),
      (scanSpecAmended l nr true).1 = l ∧ (scanSpecAmended l nr true).2.2 = true := by
  intro l
  induction l with
  | nil => intro nr; exact ⟨rfl, rfl⟩
  | cons e rest ih =>
    intro nr
    have ih1 : ∀ x, (scanSpecAmended rest x true).1 = rest := fun x => (ih x).1
    have ih2 : ∀ x, (scanSpecAmended rest x true).2.2 = true := fun x => (ih x).2
    simp only [scanSpecAmended]
    by_cases h1 : nr.end_idx ≤ e.start_idx
    · simp [h1, ih1, ih2]
    · by_cases h2 : nr.start_idx ≥ e.end_idx
      · simp [h1, h2, ih1, ih2]
      · by_cases h3 : e.end_idx < nr.end_idx
        · simp [h1, h2, h3, ih1, ih2]
        · simp [h1, h2, h3, ih1, ih2]

/-- The code's scan equals the amended spec scan followed by the code's
unconditional "append the cursor range when the flag is unset". -/
theorem addRangeLoop_eq_scanAmended :
    ∀ (l : List RangeWithId) (nr : RangeWithId) (ins : Bool),
      addRangeLoop l nr ins =
        (scanSpecAmended l nr ins).1 ++
          (if (scanSpecAmended l nr ins).2.2 = true then []
           else [(scanSpecAmended l nr ins).2.1]) := by
  intro l
  induction l with
  | nil =>
    intro nr ins
    cases ins <;> simp [addRangeLoop, scanSpecAmended]
  | cons e rest ih =>
    intro nr ins
    simp only [addRangeLoop, scanSpecAmended]
    by_cases h1 : nr.end_idx ≤ e.start_idx
    · by_cases hi : ins = true
      · subst hi
        simp [h1, ih]
      · have hi' : ins = false := by
          cases ins
          · rfl
          · exact absurd rfl hi
        subst hi'
        have hp1 : ∀ x, (scanSpecAmended rest x true).1 = rest :=
          fun x => (scanSpecAmended_placed rest x).1
        have hp2 : ∀ x, (scanSpecAmended rest x true).2.2 = true :=
          fun x => (scanSpecAmended_placed rest x).2
        simp [h1, addRangeLoop_inserted, hp1, hp2]
    · by_cases h2 : nr.start_idx ≥ e.end_idx
      · simp [h1, h2, ih]
      · have hp1 : ∀ x, (scanSpecAmended rest x true).1 = rest :=
          fun x => (scanSpecAmended_placed rest x).1
        have hp2 : ∀ x, (scanSpecAmended rest x true).2.2 = true :=
          fun x => (scanSpecAmended_placed rest x).2
        by_cases hs : ins = false ∧ nr.start_idx < e.start_idx
        · by_cases h3 : e.end_idx < nr.end_idx
          · simp [h1, h2, hs, h3, ih]
          · simp [h1, h2, hs, h3, addRangeLoop_inserted, hp1, hp2]
        · by_cases h3 : e.end_idx < nr.end_idx
          · simp [h1, h2, hs, h3, ih]
          · simp [h1, h2, hs, h3, addRangeLoop_inserted, hp1, hp2]

/-- If the amended spec scan on a non-empty cursor range ends unplaced, the
final cursor range is still non-empty. -/
theorem scanSpecAmended_unplaced_nonempty :
    ∀ (l : List RangeWithId) (nr : RangeWithId),
      nr.start_idx < nr.end_idx →
      (scanSpecAmended l nr false).2.2 = false →
      (scanSpecAmended l nr false).2.1.start_idx <
        (scanSpecAmended l nr false).2.1.end_idx := by
  intro l
  induction l with
  | nil =>
    intro nr h _
    simpa [scanSpecAmended] using h
  | cons e rest ih =>
    intro nr hne hpl
    have hp2 : ∀ x, (scanSpecAmended rest x true).2.2 = true :=
      fun x => (scanSpecAmended_placed rest x).2
    simp only [scanSpecAmended] at hpl ⊢
    by_cases h1 : nr.end_idx ≤ e.start_idx
    · simp [h1, hp2] at hpl
    · by_cases h2 : nr.start_idx ≥ e.end_idx
      · simp [h1, h2] at hpl ⊢
        exact ih nr hne hpl
      · by_cases hs : nr.start_idx < e.start_idx
        · by_cases h3 : e.end_idx < nr.end_idx
          · simp [h1, h2, hs, h3] at hpl ⊢
            exact ih ⟨e.end_idx, nr.end_idx, nr.id⟩ (show e.end_idx < nr.end_idx from h3) hpl
          · simp [h1, h2, hs, h3, hp2] at hpl
        · by_cases h3 : e.end_idx < nr.end_idx
          · simp [h1, h2, hs, h3] at hpl ⊢
            exact ih ⟨e.end_idx, nr.end_idx, nr.id⟩ (show e.end_idx < nr.end_idx from h3) hpl
          · simp [h1, h2, hs, h3, hp2] at hpl

/-- C3 counterexample: the code does NOT mark the range placed when emitting
the leading slice, so on the well-formed input existing = [5,10) and new =
[3,12) the literal pseudocode (which says "insert the leading slice; mark
placed") loses the trailing remainder [10,12) that `add_range` keeps. -/
theorem addRange_ne_specLiteral :
    rangesOrdered ([⟨5, 10, 0⟩] : List RangeWithId) ∧
    (⟨3, 12, 1⟩ : RangeWithId).start_idx < (⟨3, 12, 1⟩ : RangeWithId).end_idx ∧
    add_range [⟨5, 10, 0⟩] ⟨3, 12, 1⟩ = [⟨3, 5, 1⟩, ⟨5, 10, 0⟩, ⟨10, 12, 1⟩] ∧
    specAddRangeLiteral [⟨5, 10, 0⟩] ⟨3, 12, 1⟩ = [⟨3, 5, 1⟩, ⟨5, 10, 0⟩] ∧
    add_range [⟨5, 10, 0⟩] ⟨3, 12, 1⟩ ≠ specAddRangeLiteral [⟨5, 10, 0⟩] ⟨3, 12, 1⟩ := by
  decide

/-- C3 amended: with the one correction that emitting the leading slice does
not mark the range placed, `add_range` computes exactly the spec's
pseudocode on every well-formed sequence and non-empty new range. -/
theorem addRange_eq_specAmended (l : List RangeWithId) (nr : RangeWithId)
    (hord : rangesOrdered l) (hne : nr.start_idx < nr.end_idx) :
    add_range l nr = specAddRangeAmended l nr := by
  unfold add_range specAddRangeAmended
  rw [addRangeLoop_eq_scanAmended]
  cases hpl : (scanSpecAmended l nr false).2.2 with
  | true => simp [hpl]
  | false =>
    have hne' := scanSpecAmended_unplaced_nonempty l nr hne hpl
    simp [hpl, hne']

/-- Witness for C3's amended statement at the counterexample input. -/
theorem addRange_eq_specAmended_witness :
    rangesOrdered ([⟨5, 10, 0⟩] : List RangeWithId) ∧
    add_range [⟨5, 10, 0⟩] ⟨3, 12, 1⟩ = specAddRangeAmended [⟨5, 10, 0⟩] ⟨3, 12, 1⟩ :=
  ⟨by decide, addRange_eq_specAmended [⟨5, 10, 0⟩] ⟨3, 12, 1⟩ (by decide) (by decide)⟩

/-- Inserting at the boundary of a known prefix. -/
theorem insertAt_append (pre l : List RangeWithId) (a : RangeWithId) :
    insertAt (pre ++ l) pre.length a = pre ++ a :: l := by
  unfold insertAt
  rw [List.take_left, List.drop_left]

/-- Lookup at the boundary of a known prefix. -/
theorem getAt_append (pre : List RangeWithId) (e : RangeWithId) (rest : List RangeWithId) :
    (pre ++ e :: rest)[pre.length]? = some e := by
  rw [List.getElem?_append_right (le_refl pre.length)]
  simp

/-- The index-level loop, entered at the boundary of an already-visited
prefix, never fails and computes the functional scan on the suffix. -/
theorem addRangeIdxGo_eq :
    ∀ (suffix pre : List RangeWithId) (nr : RangeWithId) (ins : Bool),
      addRangeIdxGo (pre ++ suffix) pre.length nr ins =
        some (pre ++ addRangeLoop suffix nr ins) := by
  intro suffix
  induction suffix with
  | nil =>
    intro pre nr ins
    rw [addRangeIdxGo]
    have hguard : ¬ (pre.length < (pre ++ ([] : List RangeWithId)).length) := by simp
    rw [dif_neg hguard]
    cases ins <;> simp [addRangeLoop]
  | cons e rest ih =>
    intro pre nr ins
    rw [addRangeIdxGo]
    have hguard : pre.length < (pre ++ e :: rest).length := by simp
    rw [dif_pos hguard, getAt_append]
    by_cases h1 : nr.end_idx ≤ e.start_idx
    · by_cases hi : ins = true
      · subst hi
        simp [h1]
        have harr : pre ++ e :: rest = (pre ++ [e]) ++ rest := by simp
        have hlen : pre.length + 1 = (pre ++ [e]).length := by simp
        rw [harr, hlen, ih (pre ++ [e]) nr true]
        have hloop : addRangeLoop (e :: rest) nr true = e :: addRangeLoop rest nr true := by
          simp [addRangeLoop, h1]
        rw [hloop]
        simp
      · have hi' : ins = false := by
          cases ins
          · rfl
          · exact absurd rfl hi
        subst hi'
        simp [h1]
        rw [insertAt_append]
        have harr : pre ++ nr :: e :: rest = (pre ++ [nr, e]) ++ rest := by simp
        have hlen : pre.length + 2 = (pre ++ [nr, e]).length := by simp
        rw [harr, hlen, ih (pre ++ [nr, e]) nr true]
        have hloop : addRangeLoop (e :: rest) nr false =
            nr :: e :: addRangeLoop rest nr true := by
          simp [addRangeLoop, h1]
        rw [hloop]
        simp
    · by_cases h2 : e.end_idx ≤ nr.start_idx
      · simp [h1, h2]
        have harr : pre ++ e :: rest = (pre ++ [e]) ++ rest := by simp
        have hlen : pre.length + 1 = (pre ++ [e]).length := by simp
        rw [harr, hlen, ih (pre ++ [e]) nr ins]
        have hloop : addRangeLoop (e :: rest) nr ins = e :: addRangeLoop rest nr ins := by
          simp [addRangeLoop, h1, h2]
        rw [hloop]
        simp
      · by_cases hs : ins = false ∧ nr.start_idx < e.start_idx
        · obtain ⟨hi, hlt⟩ := hs
          subst hi
          by_cases h3 : e.end_idx < nr.end_idx
          · simp [h1, h2, hlt, h3]
            rw [insertAt_append]
            have harr : pre ++ (⟨nr.start_idx, e.start_idx, nr.id⟩ : RangeWithId) :: e :: rest =
                (pre ++ [(⟨nr.start_idx, e.start_idx, nr.id⟩ : RangeWithId), e]) ++ rest := by
              simp
            have hlen : pre.length + 2 =
                (pre ++ [(⟨nr.start_idx, e.start_idx, nr.id⟩ : RangeWithId), e]).length := by
              simp
            rw [harr, hlen, ih _ ⟨e.end_idx, nr.end_idx, nr.id⟩ false]
            have hloop : addRangeLoop (e :: rest) nr false =
                ⟨nr.start_idx, e.start_idx, nr.id⟩ :: e ::
                  addRangeLoop rest ⟨e.end_idx, nr.end_idx, nr.id⟩ false := by
              simp [addRangeLoop, h1, h2, hlt, h3]
            rw [hloop]
            simp
          · simp [h1, h2, hlt, h3]
            rw [insertAt_append]
            have harr : pre ++ (⟨nr.start_idx, e.start_idx, nr.id⟩ : RangeWithId) :: e :: rest =
                (pre ++ [(⟨nr.start_idx, e.start_idx, nr.id⟩ : RangeWithId), e]) ++ rest := by
              simp
            have hlen : pre.length + 2 =
                (pre ++ [(⟨nr.start_idx, e.start_idx, nr.id⟩ : RangeWithId), e]).length := by
              simp
            rw [harr, hlen, ih _ ⟨nr.end_idx, nr.end_idx, nr.id⟩ true]
            have hloop : addRangeLoop (e :: rest) nr false =
                ⟨nr.start_idx, e.start_idx, nr.id⟩ :: e ::
                  addRangeLoop rest ⟨nr.end_idx, nr.end_idx, nr.id⟩ true := by
              simp [addRangeLoop, h1, h2, hlt, h3]
            rw [hloop]
            simp
        · by_cases h3 : e.end_idx < nr.end_idx
          · simp [h1, h2, hs, h3]
            have harr : pre ++ e :: rest = (pre ++ [e]) ++ rest := by simp
            have hlen : pre.length + 1 = (pre ++ [e]).length := by simp
            rw [harr, hlen, ih (pre ++ [e]) ⟨e.end_idx, nr.end_idx, nr.id⟩ ins]
            have hloop : addRangeLoop (e :: rest) nr ins =
                e :: addRangeLoop rest ⟨e.end_idx, nr.end_idx, nr.id⟩ ins := by
              simp [addRangeLoop, h1, h2, hs, h3]
            rw [hloop]
            simp
          · simp [h1, h2, hs, h3]
            have harr : pre ++ e :: rest = (pre ++ [e]) ++ rest := by simp
            have hlen : pre.length + 1 = (pre ++ [e]).length := by simp
            rw [harr, hlen, ih (pre ++ [e]) ⟨nr.end_idx, nr.end_idx, nr.id⟩ true]
            have hloop : addRangeLoop (e :: rest) nr ins =
                e :: addRangeLoop rest ⟨nr.end_idx, nr.end_idx, nr.id⟩ true := by
              simp [addRangeLoop, h1, h2, hs, h3]
            rw [hloop]
            simp

/-- C9: the bounds-checked rendering of the loop never reaches the
out-of-bounds branch — on every input it returns `some` of exactly the list
`add_range` computes. -/
theorem addRangeChecked_safe (ranges : List RangeWithId) (new_range : RangeWithId) :
    addRangeChecked ranges new_range = some (add_range ranges new_range) := by
  have h := addRangeIdxGo_eq ranges [] new_range false
  simpa [addRangeChecked, add_range] using h

/-- C1 (code defect): on the stdin line "foo bar" with caller patterns
["foo", "bar"], the program's printed line wraps only the last-listed
pattern's match [4,7) in `colors[0]` — the `match_line` result is bound to
the unused `_ranges` and discarded — while the spec's renderer applied to
the merged range list also colors "foo" with the second palette color.  The
two outputs differ, so the per-line output is not a function of the merged
range list. -/
theorem run_output_ignores_merged_ranges :
    codeLineOutput ['f', 'o', 'o', ' ', 'b', 'a', 'r'] [(4, 7)] (buildColors false false) =
      ['f', 'o', 'o', ' ', ESC, '[', '3', '1', 'm', 'b', 'a', 'r', ESC, '[', '0', 'm'] ∧
    match_line (runRegexOrder [⟨1, [⟨[some (0, 3)]⟩]⟩, ⟨1, [⟨[some (4, 7)]⟩]⟩]) false false =
      [⟨0, 3, 1⟩, ⟨4, 7, 0⟩] ∧
    renderRanges ['f', 'o', 'o', ' ', 'b', 'a', 'r'] (buildColors false false) 0
        (match_line (runRegexOrder [⟨1, [⟨[some (0, 3)]⟩]⟩, ⟨1, [⟨[some (4, 7)]⟩]⟩])
          false false) =
      [ESC, '[', '3', '2', 'm', 'f', 'o', 'o', ESC, '[', '0', 'm', ' ',
        ESC, '[', '3', '1', 'm', 'b', 'a', 'r', ESC, '[', '0', 'm'] ∧
    codeLineOutput ['f', 'o', 'o', ' ', 'b', 'a', 'r'] [(4, 7)] (buildColors false false) ≠
      renderRanges ['f', 'o', 'o', ' ', 'b', 'a', 'r'] (buildColors false false) 0
        (match_line (runRegexOrder [⟨1, [⟨[some (0, 3)]⟩]⟩, ⟨1, [⟨[some (4, 7)]⟩]⟩])
          false false) := by
  decide
